import Mathlib

/-!
# Indicator engine of `src/app1.py`, shallowly embedded

The repository's only computational core is the technical-indicator code in
`src/app1.py`:

* `SMA20`/`SMA50` (lines 110-111): `data['Close'].rolling(window=w).mean()`;
* `compute_rsi` (lines 98-104):

  ```python
  def compute_rsi(series, period=14):
      delta = series.diff()
      gain = (delta.where(delta > 0, 0)).rolling(window=period).mean()
      loss = (-delta.where(delta < 0, 0)).rolling(window=period).mean()
      rs = gain / loss
      rsi = 100 - (100 / (1 + rs))
      return rsi
  ```

We embed a pandas float column as `List (Option ℚ)`: `none` models a NaN
cell, `some q` a (finite) numeric cell; exact rationals stand in for IEEE
doubles.  The pandas semantics of each primitive is reproduced faithfully:

* `series.diff()` puts NaN at position 0 and `s[i] - s[i-1]` elsewhere;
* `delta.where(cond, 0)` keeps a cell where `cond` holds and writes `0`
  elsewhere; a comparison against NaN is `False`, so the NaN produced by
  `diff` is replaced by `0` (not propagated);
* `.rolling(window=w).mean()` (default `min_periods = w`) is NaN at
  position `i` when `i + 1 < w`, else the mean of the `w` trailing cells
  (the masked columns fed to it contain no NaN);
* `gain / loss` on the two rolling means (both nonnegative where defined)
  follows IEEE semantics: `g / 0 = +inf` when `g > 0` and `0 / 0 = NaN`;
  then `100 - 100/(1 + rs)` maps `+inf` to `100`, a finite `rs` to
  `100 - 100/(1+rs)`, and NaN to NaN.
-/

namespace StockApp

/-- The successive differences of a list of closes, seeded with the value
preceding the rest: `diffsFrom p (x :: xs)` starts with `x - p`. -/
def diffsFrom (p : ℚ) : List ℚ → List ℚ
  | [] => []
  | x :: xs => (x - p) :: diffsFrom x xs

/-- pandas `series.diff()`: a NaN cell at position 0, then the successive
differences `s[i] - s[i-1]`. -/
def diff : List ℚ → List (Option ℚ)
  | [] => []
  | x :: xs => none :: (diffsFrom x xs).map some

/-- One cell of `delta.where(delta > 0, 0)`: a positive delta is kept,
any other cell — including the NaN from `diff`, since `NaN > 0` is
`False` in pandas — becomes `0`. -/
def gainCell : Option ℚ → ℚ
  | none => 0
  | some d => if 0 < d then d else 0

/-- One cell of `(-delta.where(delta < 0, 0))`: a negative delta is kept
and negated, any other cell — including the NaN from `diff` — becomes `0`. -/
def lossCell : Option ℚ → ℚ
  | none => 0
  | some d => if d < 0 then -d else 0

/-- The masked gain column `delta.where(delta > 0, 0)` of `compute_rsi`. -/
def gains (s : List ℚ) : List ℚ := (diff s).map gainCell

/-- The masked loss column `(-delta.where(delta < 0, 0))` of `compute_rsi`. -/
def losses (s : List ℚ) : List ℚ := (diff s).map lossCell

/-- pandas `xs.rolling(window=w).mean()` on a NaN-free column with the
default `min_periods = w`: NaN while the window is not yet full, else the
arithmetic mean of the `w` cells ending at the position. -/
def rollingMean (xs : List ℚ) (w : ℕ) : List (Option ℚ) :=
  (List.range xs.length).map fun i =>
    if i + 1 < w then none
    else some ((((xs.drop (i + 1 - w)).take w).sum) / (w : ℚ))

/-- One cell of `rs = gain / loss` followed by `rsi = 100 - (100 / (1 + rs))`,
with the IEEE float semantics pandas uses on the two nonnegative rolling
means: `l = 0, g ≠ 0` gives `rs = +inf`, hence `rsi = 100 - 100/(+inf) = 100`;
`l = 0, g = 0` gives `rs = NaN`, hence a NaN (undefined) cell. -/
def rsiCell (g l : ℚ) : Option ℚ :=
  if l = 0 then (if g = 0 then none else some 100)
  else some (100 - 100 / (1 + g / l))

/-- `compute_rsi` of `src/app1.py` lines 98-104: rolling means of the masked
gain and loss columns, combined cellwise by `rsiCell`; a NaN in either
rolling mean (window not yet full) propagates to a NaN RSI cell. -/
def compute_rsi (series : List ℚ) (period : ℕ) : List (Option ℚ) :=
  List.zipWith (fun g? l? => g?.bind fun g => l?.bind fun l => rsiCell g l)
    (rollingMean (gains series) period)
    (rollingMean (losses series) period)

/-- `data['Close'].rolling(window=w).mean()` of `src/app1.py` lines 110-111. -/
def sma (closes : List ℚ) (window : ℕ) : List (Option ℚ) :=
  rollingMean closes window

/-- The sum of the `w`-cell window ending at position `a + w - 1`. -/
def sliceSum (L : List ℚ) (a w : ℕ) : ℚ := ((L.drop a).take w).sum

/-- The rolling average gain feeding the RSI cell at position `i`. -/
def avgGain (s : List ℚ) (p i : ℕ) : ℚ := sliceSum (gains s) (i + 1 - p) p / (p : ℚ)

/-- The rolling average loss feeding the RSI cell at position `i`. -/
def avgLoss (s : List ℚ) (p i : ℕ) : ℚ := sliceSum (losses s) (i + 1 - p) p / (p : ℚ)

/-! ## Length and cell characterisations -/

theorem diffsFrom_length (p : ℚ) (l : List ℚ) : (diffsFrom p l).length = l.length := by
  induction l generalizing p with
  | nil => rfl
  | cons x xs ih => simp [diffsFrom, ih]

theorem diff_length (s : List ℚ) : (diff s).length = s.length := by
  cases s with
  | nil => rfl
  | cons x xs => simp [diff, diffsFrom_length]

theorem gains_length (s : List ℚ) : (gains s).length = s.length := by
  simp [gains, diff_length]

theorem losses_length (s : List ℚ) : (losses s).length = s.length := by
  simp [losses, diff_length]

theorem rollingMean_length (xs : List ℚ) (w : ℕ) :
    (rollingMean xs w).length = xs.length := by
  simp [rollingMean]

theorem compute_rsi_length (s : List ℚ) (p : ℕ) :
    (compute_rsi s p).length = s.length := by
  simp [compute_rsi, rollingMean_length, gains_length, losses_length]

theorem sma_length (closes : List ℚ) (w : ℕ) :
    (sma closes w).length = closes.length := by
  simp [sma, rollingMean_length]

theorem rollingMean_getD (xs : List ℚ) (w i : ℕ) (h : i < xs.length) :
    (rollingMean xs w).getD i none =
      if i + 1 < w then none else some (sliceSum xs (i + 1 - w) w / (w : ℚ)) := by
  have hlen : i < (rollingMean xs w).length := by rwa [rollingMean_length]
  rw [List.getD_eq_getElem _ _ hlen]
  simp [rollingMean, sliceSum]

theorem diffsFrom_getD (l : List ℚ) (p : ℚ) (k : ℕ) (h : k < l.length) :
    (diffsFrom p l).getD k 0 = l.getD k 0 - (p :: l).getD k 0 := by
  induction l generalizing p k with
  | nil => simp at h
  | cons x xs ih =>
    cases k with
    | zero => simp [diffsFrom]
    | succ k =>
      simp only [diffsFrom, List.getD_cons_succ]
      exact ih x k (by simpa using h)

theorem diff_getD (s : List ℚ) (j : ℕ) (h : j < s.length) :
    (diff s).getD j none =
      if j = 0 then none else some (s.getD j 0 - s.getD (j - 1) 0) := by
  cases s with
  | nil => simp at h
  | cons x xs =>
    cases j with
    | zero => simp [diff]
    | succ j =>
      have hj : j < xs.length := by simpa using h
      have hj' : j < ((diffsFrom x xs).map some).length := by
        simpa [diffsFrom_length] using hj
      simp only [diff, List.getD_cons_succ, Nat.succ_ne_zero, if_false,
        Nat.add_sub_cancel]
      rw [List.getD_eq_getElem _ _ hj', List.getElem_map]
      rw [← List.getD_eq_getElem (d := 0) _ (by simpa [diffsFrom_length] using hj)]
      rw [diffsFrom_getD xs x j hj]

theorem gains_getD (s : List ℚ) (j : ℕ) (h : j < s.length) :
    (gains s).getD j 0 = gainCell ((diff s).getD j none) := by
  have h1 : j < (diff s).length := by rwa [diff_length]
  have h2 : j < (gains s).length := by rwa [gains_length]
  rw [List.getD_eq_getElem _ _ h2, List.getD_eq_getElem _ _ h1]
  simp [gains]

theorem losses_getD (s : List ℚ) (j : ℕ) (h : j < s.length) :
    (losses s).getD j 0 = lossCell ((diff s).getD j none) := by
  have h1 : j < (diff s).length := by rwa [diff_length]
  have h2 : j < (losses s).length := by rwa [losses_length]
  rw [List.getD_eq_getElem _ _ h2, List.getD_eq_getElem _ _ h1]
  simp [losses]

theorem take_sum_eq (L : List ℚ) (w : ℕ) :
    (L.take w).sum = ∑ j ∈ Finset.range w, L.getD j 0 := by
  induction L generalizing w with
  | nil => simp
  | cons x xs ih =>
    cases w with
    | zero => simp
    | succ w =>
      rw [Finset.sum_range_succ']
      simp [ih w, add_comm]

theorem sliceSum_eq_sum_range (L : List ℚ) (a w : ℕ) :
    sliceSum L a w = ∑ j ∈ Finset.range w, L.getD (a + j) 0 := by
  rw [sliceSum, take_sum_eq]
  refine Finset.sum_congr rfl fun j _ => ?_
  rw [List.getD_eq_getElem?_getD, List.getD_eq_getElem?_getD, List.getElem?_drop]

theorem mem_slice (L : List ℚ) (a w : ℕ) (x : ℚ) (hx : x ∈ (L.drop a).take w) :
    ∃ j, a ≤ j ∧ j < a + w ∧ ∃ hj : j < L.length, L.get ⟨j, hj⟩ = x := by
  obtain ⟨k, hk, hkx⟩ := List.getElem_of_mem hx
  have hkw : k < w := lt_of_lt_of_le hk (by simpa using List.length_take_le w (L.drop a))
  have hkd : k < (L.drop a).length := lt_of_lt_of_le hk (by simp [List.length_take])
  have hj : a + k < L.length := by
    have := hkd
    simp only [List.length_drop] at this
    omega
  refine ⟨a + k, Nat.le_add_right a k, by omega, hj, ?_⟩
  rw [← hkx, List.getElem_take, List.getElem_drop]
  rfl

theorem compute_rsi_getD (s : List ℚ) (p i : ℕ) (h : i < s.length) :
    (compute_rsi s p).getD i none =
      if i + 1 < p then none else rsiCell (avgGain s p i) (avgLoss s p i) := by
  have hg : i < (rollingMean (gains s) p).length := by
    rwa [rollingMean_length, gains_length]
  have hl : i < (rollingMean (losses s) p).length := by
    rwa [rollingMean_length, losses_length]
  have hz : i < (compute_rsi s p).length := by rwa [compute_rsi_length]
  rw [List.getD_eq_getElem _ _ hz]
  simp only [compute_rsi, List.getElem_zipWith]
  rw [← List.getD_eq_getElem (d := none) _ hg, ← List.getD_eq_getElem (d := none) _ hl]
  rw [rollingMean_getD _ _ _ (by rwa [gains_length]),
    rollingMean_getD _ _ _ (by rwa [losses_length])]
  by_cases hip : i + 1 < p
  · simp [hip]
  · simp [hip, avgGain, avgLoss, Option.bind]

/-! ## Nonnegativity of the masked columns -/

theorem gainCell_nonneg (c : Option ℚ) : 0 ≤ gainCell c := by
  cases c with
  | none => simp [gainCell]
  | some d =>
    by_cases hd : 0 < d
    · simp [gainCell, hd, le_of_lt hd]
    · simp [gainCell, hd]

theorem lossCell_nonneg (c : Option ℚ) : 0 ≤ lossCell c := by
  cases c with
  | none => simp [lossCell]
  | some d =>
    by_cases hd : d < 0
    · simp [lossCell, hd]; linarith
    · simp [lossCell, hd]

theorem sliceSum_nonneg (L : List ℚ) (a w : ℕ) (hL : ∀ x ∈ L, 0 ≤ x) :
    0 ≤ sliceSum L a w := by
  refine List.sum_nonneg fun x hx => ?_
  exact hL x (List.mem_of_mem_drop (List.mem_of_mem_take hx))

theorem gains_mem_nonneg (s : List ℚ) : ∀ x ∈ gains s, 0 ≤ x := by
  intro x hx
  obtain ⟨c, _, rfl⟩ := List.mem_map.mp hx
  exact gainCell_nonneg c

theorem losses_mem_nonneg (s : List ℚ) : ∀ x ∈ losses s, 0 ≤ x := by
  intro x hx
  obtain ⟨c, _, rfl⟩ := List.mem_map.mp hx
  exact lossCell_nonneg c

theorem avgGain_nonneg (s : List ℚ) (p i : ℕ) : 0 ≤ avgGain s p i :=
  div_nonneg (sliceSum_nonneg _ _ _ (gains_mem_nonneg s)) (Nat.cast_nonneg p)

theorem avgLoss_nonneg (s : List ℚ) (p i : ℕ) : 0 ≤ avgLoss s p i :=
  div_nonneg (sliceSum_nonneg _ _ _ (losses_mem_nonneg s)) (Nat.cast_nonneg p)

/-! ## Constant series and appended suffixes -/

theorem diffsFrom_replicate (c : ℚ) (n : ℕ) :
    diffsFrom c (List.replicate n c) = List.replicate n 0 := by
  induction n with
  | zero => rfl
  | succ n ih => simp [List.replicate_succ, diffsFrom, ih]

theorem gains_replicate (n : ℕ) (c : ℚ) :
    gains (List.replicate n c) = List.replicate n 0 := by
  cases n with
  | zero => rfl
  | succ n =>
    simp [List.replicate_succ, gains, diff, diffsFrom_replicate,
      List.map_replicate, gainCell]

theorem losses_replicate (n : ℕ) (c : ℚ) :
    losses (List.replicate n c) = List.replicate n 0 := by
  cases n with
  | zero => rfl
  | succ n =>
    simp [List.replicate_succ, losses, diff, diffsFrom_replicate,
      List.map_replicate, lossCell]

theorem sliceSum_replicate_zero (n a w : ℕ) :
    sliceSum (List.replicate n (0 : ℚ)) a w = 0 := by
  refine List.sum_eq_zero fun x hx => ?_
  have hx' : x ∈ List.replicate n (0 : ℚ) :=
    List.mem_of_mem_drop (List.mem_of_mem_take hx)
  exact List.eq_of_mem_replicate hx'

theorem sliceSum_append (L M : List ℚ) (a w : ℕ) (h : a + w ≤ L.length) :
    sliceSum (L ++ M) a w = sliceSum L a w := by
  rw [sliceSum_eq_sum_range, sliceSum_eq_sum_range]
  refine Finset.sum_congr rfl fun j hj => ?_
  have hj' : a + j < L.length := by
    have := Finset.mem_range.mp hj
    omega
  exact List.getD_append L M 0 (a + j) hj'

theorem diff_getD_append (xs ys : List ℚ) (j : ℕ) (hj : j < xs.length) :
    (diff (xs ++ ys)).getD j none = (diff xs).getD j none := by
  have hj' : j < (xs ++ ys).length := by simp; omega
  rw [diff_getD _ _ hj', diff_getD _ _ hj]
  by_cases h0 : j = 0
  · simp [h0]
  · rw [if_neg h0, if_neg h0, List.getD_append _ _ _ _ hj,
      List.getD_append _ _ _ _ (by omega)]

theorem avgGain_append (xs ys : List ℚ) (p i : ℕ) (hi : i < xs.length)
    (hp : p ≤ i + 1) : avgGain (xs ++ ys) p i = avgGain xs p i := by
  unfold avgGain
  congr 1
  rw [sliceSum_eq_sum_range, sliceSum_eq_sum_range]
  refine Finset.sum_congr rfl fun j hj => ?_
  have hjp : j < p := Finset.mem_range.mp hj
  have hji : i + 1 - p + j < xs.length := by omega
  have hji' : i + 1 - p + j < (xs ++ ys).length := by simp; omega
  rw [gains_getD _ _ hji', gains_getD _ _ hji, diff_getD_append _ _ _ hji]

theorem avgLoss_append (xs ys : List ℚ) (p i : ℕ) (hi : i < xs.length)
    (hp : p ≤ i + 1) : avgLoss (xs ++ ys) p i = avgLoss xs p i := by
  unfold avgLoss
  congr 1
  rw [sliceSum_eq_sum_range, sliceSum_eq_sum_range]
  refine Finset.sum_congr rfl fun j hj => ?_
  have hjp : j < p := Finset.mem_range.mp hj
  have hji : i + 1 - p + j < xs.length := by omega
  have hji' : i + 1 - p + j < (xs ++ ys).length := by simp; omega
  rw [losses_getD _ _ hji', losses_getD _ _ hji, diff_getD_append _ _ _ hji]

/-! ## Claim theorems -/

/-- C1: for every sequence of real closes and every window `w ≥ 1`, the
simple moving average has the same length as the input; position `i` is
undefined when `i + 1 < w` and otherwise equals the arithmetic mean of the
`w` closes ending at `i`; in particular
`sma [1,2,3,4,5] 3 = [undefined, undefined, 2, 3, 4]`. -/
theorem sma_matches_spec (closes : List ℚ) (w : ℕ) (hw : 1 ≤ w) :
    (sma closes w).length = closes.length ∧
    (∀ i, i < closes.length → i + 1 < w → (sma closes w).getD i none = none) ∧
    (∀ i, i < closes.length → w ≤ i + 1 →
      (sma closes w).getD i none =
        some ((∑ j ∈ Finset.range w, closes.getD (i + 1 - w + j) 0) / (w : ℚ))) ∧
    sma [1, 2, 3, 4, 5] 3 = [none, none, some 2, some 3, some 4] := by
  refine ⟨sma_length closes w, fun i hi hiw => ?_, fun i hi hwi => ?_, ?_⟩
  · rw [sma, rollingMean_getD _ _ _ hi, if_pos hiw]
  · rw [sma, rollingMean_getD _ _ _ hi, if_neg (by omega), sliceSum_eq_sum_range]
  · norm_num [sma, rollingMean, List.range_succ]

/-- Witness for C1 at `closes = [1,2,3,4,5]`, `w = 3`. -/
theorem sma_matches_spec_witness :
    sma [1, 2, 3, 4, 5] 3 = [none, none, some 2, some 3, some 4] :=
  (sma_matches_spec [1, 2, 3, 4, 5] 3 (by norm_num)).2.2.2

/-- C2, counterexample: the claim places the RSI cell at index 1 (one of the
first `period = 2` positions) among the undefined ones for
`closes = [1, 2, 3]`, but the code defines it: masking turns the NaN that
`diff` leaves at position 0 into a zero gain and a zero loss, so the rolling
window is already full at index `period - 1` and no position is lost to
differencing. -/
theorem compute_rsi_alignment_counterexample :
    compute_rsi [1, 2, 3] 2 = [none, some 100, some 100] := by
  norm_num [compute_rsi, rollingMean, gains, losses, diff, diffsFrom,
    gainCell, lossCell, rsiCell, List.range_succ]

/-- C2 as amended: the RSI output is index-aligned to the input (same
length) and `rsi[i] = 100 - 100/(1 + avg_gain/avg_loss)` wherever the
average loss is nonzero and the window is full; but exactly the first
`period - 1` positions are undefined by window alignment — the position
lost to differencing is recovered because the `where` masking maps the NaN
delta to 0 — together with any later position where the rolling means of
gains and losses are both zero. -/
theorem compute_rsi_alignment (s : List ℚ) (p : ℕ) (hp : 1 ≤ p) :
    (compute_rsi s p).length = s.length ∧
    (∀ i, i < s.length → p ≤ i + 1 → avgLoss s p i ≠ 0 →
      (compute_rsi s p).getD i none =
        some (100 - 100 / (1 + avgGain s p i / avgLoss s p i))) ∧
    (∀ i, i < s.length →
      ((compute_rsi s p).getD i none = none ↔
        i + 1 < p ∨ (avgGain s p i = 0 ∧ avgLoss s p i = 0))) := by
  refine ⟨compute_rsi_length s p, fun i hi hpi hl => ?_, fun i hi => ?_⟩
  · rw [compute_rsi_getD _ _ _ hi, if_neg (by omega), rsiCell, if_neg hl]
  · rw [compute_rsi_getD _ _ _ hi]
    by_cases hip : i + 1 < p
    · simp [hip]
    · rw [if_neg hip, rsiCell]
      by_cases hl : avgLoss s p i = 0
      · by_cases hg : avgGain s p i = 0
        · simp [hl, hg, hip]
        · simp [hl, hg, hip]
      · simp [hl, hip]

/-- Witness for C2's amended theorem at `closes = [1, 2, 1, 2]`, `p = 2`,
`i = 3`: the average loss there is `1/2 ≠ 0` and the RSI cell carries the
claimed formula. -/
theorem compute_rsi_alignment_witness :
    (compute_rsi [1, 2, 1, 2] 2).getD 3 none =
      some (100 - 100 / (1 + avgGain [1, 2, 1, 2] 2 3 / avgLoss [1, 2, 1, 2] 2 3)) :=
  (compute_rsi_alignment [1, 2, 1, 2] 2 (by norm_num)).2.1 3 (by norm_num)
    (by norm_num)
    (by norm_num [avgLoss, sliceSum, losses, diff, diffsFrom, lossCell])

/-- C3: when the rolling average loss over a window is 0 while the rolling
average gain is positive, the RSI at that position is defined and equals
exactly 100 (no division error and no undefined value is produced there). -/
theorem rsi_avg_loss_zero_gives_100 (s : List ℚ) (p i : ℕ) (hi : i < s.length)
    (hpi : p ≤ i + 1) (hl : avgLoss s p i = 0) (hg : 0 < avgGain s p i) :
    (compute_rsi s p).getD i none = some 100 := by
  rw [compute_rsi_getD _ _ _ hi, if_neg (by omega), rsiCell, if_pos hl,
    if_neg (ne_of_gt hg)]

/-- Witness for C3 at `closes = [1, 2, 3]`, `p = 2`, `i = 1`. -/
theorem rsi_avg_loss_zero_gives_100_witness :
    (compute_rsi [1, 2, 3] 2).getD 1 none = some 100 :=
  rsi_avg_loss_zero_gives_100 [1, 2, 3] 2 1 (by norm_num) (by norm_num)
    (by norm_num [avgLoss, sliceSum, losses, diff, diffsFrom, lossCell])
    (by norm_num [avgGain, sliceSum, gains, diff, diffsFrom, gainCell])

/-- C4: at every index where the RSI output is defined, its value lies in
the closed interval `[0, 100]`. -/
theorem rsi_in_unit_range (s : List ℚ) (p i : ℕ) (v : ℚ)
    (hv : (compute_rsi s p).getD i none = some v) : 0 ≤ v ∧ v ≤ 100 := by
  have hi : i < s.length := by
    by_contra hge
    rw [List.getD_eq_default _ _ (by rw [compute_rsi_length]; omega)] at hv
    exact Option.noConfusion hv
  rw [compute_rsi_getD _ _ _ hi] at hv
  by_cases hip : i + 1 < p
  · rw [if_pos hip] at hv
    exact Option.noConfusion hv
  · rw [if_neg hip, rsiCell] at hv
    have hg : 0 ≤ avgGain s p i := avgGain_nonneg s p i
    have hl : 0 ≤ avgLoss s p i := avgLoss_nonneg s p i
    by_cases hl0 : avgLoss s p i = 0
    · rw [if_pos hl0] at hv
      by_cases hg0 : avgGain s p i = 0
      · rw [if_pos hg0] at hv
        exact Option.noConfusion hv
      · rw [if_neg hg0] at hv
        have hveq : (100 : ℚ) = v := Option.some.inj hv
        constructor <;> linarith
    · rw [if_neg hl0] at hv
      have hveq : 100 - 100 / (1 + avgGain s p i / avgLoss s p i) = v :=
        Option.some.inj hv
      have hratio : 0 ≤ avgGain s p i / avgLoss s p i := div_nonneg hg hl
      have h1 : (1 : ℚ) ≤ 1 + avgGain s p i / avgLoss s p i := by linarith
      have hle : (100 : ℚ) / (1 + avgGain s p i / avgLoss s p i) ≤ 100 :=
        div_le_self (by norm_num) h1
      have hpos : 0 < (100 : ℚ) / (1 + avgGain s p i / avgLoss s p i) :=
        div_pos (by norm_num) (by linarith)
      constructor <;> linarith

/-- Witness for C4 at `closes = [1, 2, 1, 2]`, `p = 2`, `i = 3`, `v = 50`. -/
theorem rsi_in_unit_range_witness : (0 : ℚ) ≤ 50 ∧ (50 : ℚ) ≤ 100 :=
  rsi_in_unit_range [1, 2, 1, 2] 2 3 50
    (by norm_num [compute_rsi, rollingMean, gains, losses, diff, diffsFrom,
      gainCell, lossCell, rsiCell, List.range_succ])

/-- C5: if every successive difference within the trailing `p`-cell window
ending at index `i` is non-negative and the RSI is defined at `i`, then the
RSI there equals 100. -/
theorem rsi_nondecreasing_window_100 (s : List ℚ) (p i : ℕ) (v : ℚ)
    (hv : (compute_rsi s p).getD i none = some v)
    (hdelta : ∀ j d, i + 1 - p ≤ j → j ≤ i →
      (diff s).getD j none = some d → 0 ≤ d) :
    v = 100 := by
  have hi : i < s.length := by
    by_contra hge
    rw [List.getD_eq_default _ _ (by rw [compute_rsi_length]; omega)] at hv
    exact Option.noConfusion hv
  rw [compute_rsi_getD _ _ _ hi] at hv
  by_cases hip : i + 1 < p
  · rw [if_pos hip] at hv
    exact Option.noConfusion hv
  · rw [if_neg hip] at hv
    have hall : ∀ x ∈ ((losses s).drop (i + 1 - p)).take p, x = 0 := by
      intro x hx
      obtain ⟨j, hja, hjb, hjlen, hjget⟩ := mem_slice _ _ _ _ hx
      have hjs : j < s.length := by rwa [losses_length] at hjlen
      have hji : j ≤ i := by omega
      have hx' : (losses s).getD j 0 = x := by
        rw [List.getD_eq_getElem _ _ hjlen, ← hjget, List.get_eq_getElem]
      rw [losses_getD _ _ hjs] at hx'
      rcases hd : (diff s).getD j none with _ | d
      · rw [hd] at hx'
        simpa [lossCell] using hx'.symm
      · rw [hd] at hx'
        have hdn : 0 ≤ d := hdelta j d hja hji hd
        rw [← hx', lossCell]
        simp [not_lt.mpr hdn]
    have hs0 : sliceSum (losses s) (i + 1 - p) p = 0 := List.sum_eq_zero hall
    have hl : avgLoss s p i = 0 := by
      unfold avgLoss
      rw [hs0, zero_div]
    rw [rsiCell, if_pos hl] at hv
    by_cases hg0 : avgGain s p i = 0
    · rw [if_pos hg0] at hv
      exact Option.noConfusion hv
    · rw [if_neg hg0] at hv
      exact (Option.some.inj hv).symm

/-- Witness for C5 at `closes = [1, 2, 3]`, `p = 2`, `i = 2`, `v = 100`. -/
theorem rsi_nondecreasing_window_100_witness : (100 : ℚ) = 100 :=
  rsi_nondecreasing_window_100 [1, 2, 3] 2 2 100
    (by norm_num [compute_rsi, rollingMean, gains, losses, diff, diffsFrom,
      gainCell, lossCell, rsiCell, List.range_succ])
    (by
      intro j d h1 h2 hd
      interval_cases j <;>
        norm_num [diff, diffsFrom] at hd <;>
        norm_num [← hd])

/-- C6: if every successive difference within the trailing `p`-cell window
ending at index `i` is non-positive and the RSI is defined at `i`, then the
RSI there equals 0. -/
theorem rsi_nonincreasing_window_0 (s : List ℚ) (p i : ℕ) (v : ℚ)
    (hv : (compute_rsi s p).getD i none = some v)
    (hdelta : ∀ j d, i + 1 - p ≤ j → j ≤ i →
      (diff s).getD j none = some d → d ≤ 0) :
    v = 0 := by
  have hi : i < s.length := by
    by_contra hge
    rw [List.getD_eq_default _ _ (by rw [compute_rsi_length]; omega)] at hv
    exact Option.noConfusion hv
  rw [compute_rsi_getD _ _ _ hi] at hv
  by_cases hip : i + 1 < p
  · rw [if_pos hip] at hv
    exact Option.noConfusion hv
  · rw [if_neg hip] at hv
    have hall : ∀ x ∈ ((gains s).drop (i + 1 - p)).take p, x = 0 := by
      intro x hx
      obtain ⟨j, hja, hjb, hjlen, hjget⟩ := mem_slice _ _ _ _ hx
      have hjs : j < s.length := by rwa [gains_length] at hjlen
      have hji : j ≤ i := by omega
      have hx' : (gains s).getD j 0 = x := by
        rw [List.getD_eq_getElem _ _ hjlen, ← hjget, List.get_eq_getElem]
      rw [gains_getD _ _ hjs] at hx'
      rcases hd : (diff s).getD j none with _ | d
      · rw [hd] at hx'
        simpa [gainCell] using hx'.symm
      · rw [hd] at hx'
        have hdn : d ≤ 0 := hdelta j d hja hji hd
        rw [← hx', gainCell]
        simp [not_lt.mpr hdn]
    have hs0 : sliceSum (gains s) (i + 1 - p) p = 0 := List.sum_eq_zero hall
    have hg : avgGain s p i = 0 := by
      unfold avgGain
      rw [hs0, zero_div]
    rw [rsiCell] at hv
    by_cases hl0 : avgLoss s p i = 0
    · rw [if_pos hl0, if_pos hg] at hv
      exact Option.noConfusion hv
    · rw [if_neg hl0, hg] at hv
      have hveq := Option.some.inj hv
      rw [zero_div] at hveq
      linarith
/-- Witness for C6 at `closes = [3, 2, 1]`, `p = 2`, `i = 2`, `v = 0`. -/
theorem rsi_nonincreasing_window_0_witness : (0 : ℚ) = 0 :=
  rsi_nonincreasing_window_0 [3, 2, 1] 2 2 0
    (by norm_num [compute_rsi, rollingMean, gains, losses, diff, diffsFrom,
      gainCell, lossCell, rsiCell, List.range_succ])
    (by
      intro j d h1 h2 hd
      interval_cases j <;>
        norm_num [diff, diffsFrom] at hd <;>
        norm_num [← hd])

/-- The 15-point close series of the spec's concrete RSI scenario. -/
def closes15 : List ℚ :=
  [44, 44.25, 44.5, 43.75, 44.65, 45.1, 45.4, 45.85, 45.4, 46.0, 45.9,
   46.4, 46.85, 47.25, 47.2]

/-- The standard simple rolling-mean (Wilder, simple-average variant) RSI
formula stated by the spec for a full window of deltas: average gain and
average loss over the deltas, `rs` their quotient, `100 - 100/(1+rs)`.
This is the reference the code is compared against, written from the
spec's words, not from the code. -/
def standardSimpleRsi (deltas : List ℚ) : ℚ :=
  let avgG := (deltas.map fun d => max d 0).sum / (deltas.length : ℚ)
  let avgL := (deltas.map fun d => max (-d) 0).sum / (deltas.length : ℚ)
  100 - 100 / (1 + avgG / avgL)

/-- C7: on the spec's 15-point series with `period = 14`, the RSI at the
final index is defined and agrees exactly (hence to within `1e-6`) with the
standard simple rolling-mean RSI formula applied to the 14 deltas ending
there; numerically both equal `4550/59`. -/
theorem rsi_concrete_final_index :
    (compute_rsi closes15 14).getD 14 none
        = some (standardSimpleRsi (diffsFrom 44 (closes15.drop 1))) ∧
    |standardSimpleRsi (diffsFrom 44 (closes15.drop 1)) - 4550 / 59| ≤
      1 / 1000000 := by
  constructor
  · rw [compute_rsi_getD closes15 14 14 (by norm_num [closes15])]
    norm_num [closes15, avgGain, avgLoss, sliceSum, gains, losses, diff,
      diffsFrom, gainCell, lossCell, rsiCell, standardSimpleRsi]
  · norm_num [closes15, standardSimpleRsi, diffsFrom]

/-- C8: SMA and RSI signal no error on degenerate inputs: the empty series
maps to the empty output, and a series shorter than the window (resp.
period) maps to a same-length output that is undefined everywhere. -/
theorem degenerate_inputs (w p : ℕ) (closes : List ℚ) :
    sma ([] : List ℚ) w = [] ∧
    compute_rsi ([] : List ℚ) p = [] ∧
    (closes.length < w →
      (sma closes w).length = closes.length ∧
      ∀ i, i < closes.length → (sma closes w).getD i none = none) ∧
    (closes.length < p →
      (compute_rsi closes p).length = closes.length ∧
      ∀ i, i < closes.length → (compute_rsi closes p).getD i none = none) := by
  refine ⟨by simp [sma, rollingMean],
    by simp [compute_rsi, gains, losses, diff, rollingMean],
    fun hw => ⟨sma_length closes w, fun i hi => ?_⟩,
    fun hp => ⟨compute_rsi_length closes p, fun i hi => ?_⟩⟩
  · rw [sma, rollingMean_getD _ _ _ hi, if_pos (by omega)]
  · rw [compute_rsi_getD _ _ _ hi, if_pos (by omega)]

/-- Witness for C8 at `closes = [1, 2]`, `p = 3`. -/
theorem degenerate_inputs_witness :
    ([1, 2] : List ℚ).length < 3 ∧ (compute_rsi [1, 2] 3).getD 1 none = none :=
  ⟨by norm_num,
    ((degenerate_inputs 3 3 [1, 2]).2.2.2 (by norm_num)).2 1 (by norm_num)⟩

/-- C9: on a constant series longer than the period every delta is zero, so
both rolling means are zero and every RSI cell is the undefined `0/0` case:
the output is undefined everywhere (in particular never 0 and never 100). -/
theorem rsi_constant_series_undefined (n p : ℕ) (c : ℚ) (hp : p < n) :
    compute_rsi (List.replicate n c) p = List.replicate n none := by
  refine List.ext_getElem (by simp [compute_rsi_length]) fun i h1 h2 => ?_
  have hi : i < (List.replicate n c).length := by
    rwa [compute_rsi_length] at h1
  rw [← List.getD_eq_getElem (d := none) _ h1, compute_rsi_getD _ _ _ hi]
  have hg : avgGain (List.replicate n c) p i = 0 := by
    unfold avgGain
    rw [gains_replicate, sliceSum_replicate_zero, zero_div]
  have hl : avgLoss (List.replicate n c) p i = 0 := by
    unfold avgLoss
    rw [losses_replicate, sliceSum_replicate_zero, zero_div]
  rw [hg, hl]
  simp [rsiCell]

/-- Witness for C9 at `n = 3`, `p = 2`, `c = 7`. -/
theorem rsi_constant_series_undefined_witness :
    2 < 3 ∧ compute_rsi (List.replicate 3 (7 : ℚ)) 2 = List.replicate 3 none :=
  ⟨by norm_num, rsi_constant_series_undefined 3 2 7 (by norm_num)⟩

/-- C10: each SMA and RSI output position depends only on the closes up to
that position: appending any suffix to the series leaves every output value
at an index inside the original series unchanged. -/
theorem indicator_depends_on_trailing_only (xs ys : List ℚ) (w p i : ℕ)
    (h : i < xs.length) :
    (sma (xs ++ ys) w).getD i none = (sma xs w).getD i none ∧
    (compute_rsi (xs ++ ys) p).getD i none = (compute_rsi xs p).getD i none := by
  have h' : i < (xs ++ ys).length := by simp; omega
  constructor
  · rw [sma, sma, rollingMean_getD _ _ _ h, rollingMean_getD _ _ _ h']
    by_cases hiw : i + 1 < w
    · simp [hiw]
    · rw [if_neg hiw, if_neg hiw, sliceSum_append _ _ _ _ (by omega)]
  · rw [compute_rsi_getD _ _ _ h', compute_rsi_getD _ _ _ h]
    by_cases hip : i + 1 < p
    · simp [hip]
    · rw [if_neg hip, if_neg hip, avgGain_append _ _ _ _ h (by omega),
        avgLoss_append _ _ _ _ h (by omega)]

/-- Witness for C10 at `xs = [1, 2, 3]`, `ys = [4]`, `w = p = 2`, `i = 2`. -/
theorem indicator_depends_on_trailing_only_witness :
    (sma ([1, 2, 3] ++ [4]) 2).getD 2 none = (sma [1, 2, 3] 2).getD 2 none ∧
    (compute_rsi ([1, 2, 3] ++ [4]) 2).getD 2 none =
      (compute_rsi [1, 2, 3] 2).getD 2 none :=
  indicator_depends_on_trailing_only [1, 2, 3] [4] 2 2 2 (by norm_num)

end StockApp
